import Mathlib

/-!
# memhttp: request resolution, HTTP→HTTPS redirector, status wrapper and site walk

A shallow embedding of `main.go`.  Go strings are Lean strings, processed through
their character lists; a byte is a natural number; a Go map that is only read or
written key by key is a partial function on its keys.  Functions of the Go standard
library that the program calls are either taken as parameters (`mime.TypeByExtension`,
`http.DetectContentType`, and what `url.Parse` reports of a redirect target) or
modelled for Unix paths (`filepath.Ext`, `filepath.Clean`, `filepath.Join`,
`filepath.Walk`, `strings.TrimPrefix`).  A handler's call of `http.Redirect` is kept by
its arguments; the `Location` that call writes is `Response.location`.
-/

namespace Memhttp

/-! ## Byte slices -/

/-- A Go `[]byte`: `data` holds the elements below the length, `spare` the elements
of the backing array between the length and the capacity. -/
structure ByteSlice where
  data : List Nat
  spare : List Nat
deriving DecidableEq, Repr

/-- Go `len(s)`. -/
def ByteSlice.len (s : ByteSlice) : Nat := s.data.length

/-- Go `cap(s)`. -/
def ByteSlice.cap (s : ByteSlice) : Nat := s.data.length + s.spare.length

/-- Go `s[:high]`: defined up to the capacity, a run-time panic beyond it. -/
def ByteSlice.sliceTo (s : ByteSlice) (high : Nat) : Option ByteSlice :=
  if high ≤ s.cap then
    some ⟨(s.data ++ s.spare).take high, (s.data ++ s.spare).drop high⟩
  else none

/-- UTF-8 encoding of one code point. -/
def utf8Bytes (n : Nat) : List Nat :=
  if n < 0x80 then [n]
  else if n < 0x800 then [0xC0 + n / 64, 0x80 + n % 64]
  else if n < 0x10000 then [0xE0 + n / 4096, 0x80 + n / 64 % 64, 0x80 + n % 64]
  else [0xF0 + n / 262144, 0x80 + n / 4096 % 64, 0x80 + n / 64 % 64, 0x80 + n % 64]

/-- Go `[]byte(s)`. -/
def stringBytes (s : String) : List Nat :=
  (s.data.map fun c => utf8Bytes c.toNat).flatten

/-! ## The response writer of `net/http` -/

/-- What a handler has done to its `http.ResponseWriter`: the headers it set, the
status code sent (`0` while no header has been written), the body written, and the
arguments of a call of `http.Redirect`. -/
structure Response where
  header : List (String × String)
  code : Int
  body : List Nat
  redirect : Option (String × Int)
deriving DecidableEq, Repr

/-- The writer a handler starts with. -/
def Response.fresh : Response := ⟨[], 0, [], none⟩

/-- `w.Header().Set(key, value)`. -/
def Response.setHeader (w : Response) (key value : String) : Response :=
  { w with header := (key, value) :: w.header.filter fun kv => kv.1 != key }

/-- `checkWriteHeaderCode` of `net/http`: a status code has three digits. -/
def validStatusCode (code : Int) : Bool := 100 ≤ code && code ≤ 999

/-- `w.WriteHeader(code)`: the first call decides the status, and panics on a code
outside 100..999; a later call is superfluous and changes nothing. -/
def Response.WriteHeader (w : Response) (code : Int) : Except String Response :=
  if w.code ≠ 0 then .ok w
  else if validStatusCode code then .ok { w with code := code }
  else .error "invalid WriteHeader code"

/-- `w.Write(b)`: writes the header with status 200 when none was written. -/
def Response.Write (w : Response) (b : List Nat) : Response :=
  { w with code := if w.code = 0 then 200 else w.code, body := w.body ++ b }

/-- `http.Redirect(w, r, url, code)`, recorded by its arguments; it replies with
status `code`. -/
def httpRedirect (w : Response) (url : String) (code : Int) : Except String Response :=
  match w.WriteHeader code with
  | .ok w => .ok { w with redirect := some (url, code) }
  | .error e => .error e

def StatusOK : Int := 200
def StatusTemporaryRedirect : Int := 307
def StatusNotFound : Int := 404

/-- `http.StatusText` at the codes the program uses. -/
def StatusText (code : Int) : String :=
  if code = 200 then "OK"
  else if code = 307 then "Temporary Redirect"
  else if code = 404 then "Not Found"
  else ""

/-- The part of `*http.Request` the handlers read. -/
structure Request where
  Host : String
  Path : String
  RawQuery : String
deriving DecidableEq, Repr

/-- A handler either returns, leaving a response, or panics. -/
abbrev HandlerFunc := Response → Request → Except String Response

/-! ## `redirect` -/

def redirect (host : String) : HandlerFunc := fun w r =>
  if r.Host ≠ host then
    w.WriteHeader StatusNotFound
  else
    let target := "https://" ++ r.Host ++ r.Path
    let target := if r.RawQuery.length > 0 then target ++ "?" ++ r.RawQuery else target
    httpRedirect w target StatusTemporaryRedirect

/-! ## `ResponseWriter` -/

/-- The wrapper around `http.ResponseWriter` that keeps a status code; `inner` is the
embedded `http.ResponseWriter`. -/
structure ResponseWriter where
  inner : Response
  statusCode : Int
deriving DecidableEq, Repr

/-- The embedded writer is called first; when it returns, the code is kept. -/
def ResponseWriter.WriteHeader (r : ResponseWriter) (statusCode : Int) :
    Except String ResponseWriter :=
  match r.inner.WriteHeader statusCode with
  | .ok inner => .ok { inner := inner, statusCode := statusCode }
  | .error e => .error e

def ResponseWriter.StatusCode (r : ResponseWriter) : Int :=
  if r.statusCode = 0 then StatusOK else r.statusCode

/-- The wrapper `logthis` builds: `&ResponseWriter{ResponseWriter: w}`. -/
def ResponseWriter.wrap (w : Response) : ResponseWriter := ⟨w, 0⟩

/-- A sequence of `WriteHeader` calls, in order, up to the first that panics. -/
def ResponseWriter.writeHeaders (r : ResponseWriter) :
    List Int → Except String ResponseWriter
  | [] => .ok r
  | code :: codes =>
    match r.WriteHeader code with
    | .ok r => r.writeHeaders codes
    | .error e => .error e

/-! ## `handle` -/

/-- `filepath.Ext`, scanning from the end of the path. -/
def extScan : List Char → List Char → List Char
  | [], _ => []
  | c :: before, acc =>
    if c = '/' then []
    else if c = '.' then '.' :: acc
    else extScan before (c :: acc)

/-- `filepath.Ext(path)`: the suffix from the last dot of the last path element. -/
def Ext (path : String) : String := ⟨extScan path.data.reverse []⟩

/-- The two functions of the standard library that decide a content type. -/
structure Mime where
  TypeByExtension : String → String
  DetectContentType : List Nat → String

/-- `type FS map[string][]byte`. -/
abbrev FS := String → Option ByteSlice

/-- The alias table, `map[string]string`. -/
abbrev Aliases := String → Option String

def sniffLen : Nat := 512

/-- The tail of `handle`, from `ctype := mime.TypeByExtension(ext)` on. -/
def serve (m : Mime) (w : Response) (ext : String) (content : ByteSlice) :
    Except String Response :=
  let ctype := m.TypeByExtension ext
  if ctype = "" then
    match content.sliceTo sniffLen with
    | none => .error "slice bounds out of range"
    | some chunk =>
      .ok ((w.setHeader "Content-Type" (m.DetectContentType chunk.data)).Write content.data)
  else
    .ok ((w.setHeader "Content-Type" ctype).Write content.data)

def handle (m : Mime) (aliases : Aliases) (fs : FS) : HandlerFunc := fun w r =>
  let ext := Ext r.Path
  match fs r.Path with
  | some content => serve m w ext content
  | none =>
    match aliases r.Path with
    | some target =>
      let target := if r.RawQuery.length > 0 then target ++ "?" ++ r.RawQuery else target
      httpRedirect w target StatusTemporaryRedirect
    | none =>
      let ext := "html"
      match fs (r.Path ++ "." ++ ext) with
      | none =>
        match w.WriteHeader StatusNotFound with
        | .ok w => .ok (w.Write (stringBytes (StatusText StatusNotFound)))
        | .error e => .error e
      | some content => serve m w ext content

/-! ## Paths (Unix) -/

/-- `strings.HasPrefix`. -/
def HasPrefix (s pre : String) : Bool := pre.data.isPrefixOf s.data

/-- `strings.TrimPrefix`. -/
def TrimPrefix (s pre : String) : String :=
  if HasPrefix s pre then ⟨s.data.drop pre.data.length⟩ else s

/-- The elements of a path between its separators, empty ones included. -/
def splitElems : List Char → List (List Char)
  | [] => [[]]
  | c :: cs =>
    if c = '/' then [] :: splitElems cs
    else
      match splitElems cs with
      | [] => [[c]]
      | e :: es => (c :: e) :: es

/-- One step of the loop of `filepath.Clean` on the elements kept so far: an empty
element and `.` are dropped, `..` removes the last element kept when there is one to
remove and is kept itself at the start of a path that is not rooted, any other
element is kept. -/
def cleanElem (rooted : Bool) (out : List (List Char)) (e : List Char) : List (List Char) :=
  if e = [] then out
  else if e = ['.'] then out
  else if e = ['.', '.'] then
    match out.getLast? with
    | none => if rooted then out else out ++ [e]
    | some top => if top = ['.', '.'] then out ++ [e] else out.dropLast
  else out ++ [e]

/-- The kept elements written with a separator between them. -/
def joinElems : List (List Char) → List Char
  | [] => []
  | [e] => e
  | e :: es => e ++ '/' :: joinElems es

/-- `filepath.Clean` on the characters of a path. -/
def cleanChars (path : List Char) : List Char :=
  match path with
  | [] => ['.']
  | c :: _ =>
    let rooted : Bool := c = '/'
    let out := joinElems ((splitElems path).foldl (cleanElem rooted) [])
    if rooted then '/' :: out
    else if out = [] then ['.'] else out

/-- `filepath.Clean`. -/
def Clean (path : String) : String := ⟨cleanChars path.data⟩

/-- `filepath.Join(a, b)`: the elements joined by a separator, from the first one that
is not empty, and cleaned. -/
def Join (a b : String) : String :=
  if a ≠ "" then Clean (a ++ "/" ++ b)
  else if b ≠ "" then Clean b
  else ""

/-! ## The `Location` of a redirect -/

/-- What `url.Parse` reports of a target, as far as `http.Redirect` looks at it: an
error (`failed`), a scheme or a host (`absolute`), or neither (`relative`). -/
inductive URLForm where
  | failed : URLForm
  | absolute : URLForm
  | relative : URLForm
deriving DecidableEq, Repr

/-- The directory of `path.Split`: the path up to and with its last separator. -/
def splitDir (path : String) : String :=
  ⟨(path.data.reverse.dropWhile fun c => c ≠ '/').reverse⟩

/-- The cut `http.Redirect` makes at `strings.Index(url, "?")`: the part before the
first `?`, and the part from it on. -/
def cutQuery (url : String) : String × String :=
  (⟨url.data.takeWhile fun c => c ≠ '?'⟩, ⟨url.data.dropWhile fun c => c ≠ '?'⟩)

/-- `strings.HasSuffix`. -/
def HasSuffix (s suf : String) : Bool := suf.data.reverse.isPrefixOf s.data.reverse

/-- The URL `http.Redirect(w, r, url, code)` redirects to, `oldpath` being
`r.URL.Path`: a target without scheme and host is made absolute against the directory
of the request path when it does not begin with a separator, and its path is cleaned
(`path.Clean`, which is `filepath.Clean` on Unix) with a trailing separator kept; any
other target is left as it is. -/
def redirectURL (form : URLForm) (oldpath url : String) : String :=
  match form with
  | .relative =>
    let oldpath := if oldpath = "" then "/" else oldpath
    let url := if url = "" ∨ url.data.head? ≠ some '/' then splitDir oldpath ++ url else url
    let cut := cutQuery url
    let trailing := HasSuffix cut.1 "/"
    let cleaned := Clean cut.1
    let cleaned := if trailing && !HasSuffix cleaned "/" then cleaned ++ "/" else cleaned
    cleaned ++ cut.2
  | _ => url

/-- A hexadecimal digit, in lower case. -/
def hexDigit (n : Nat) : Char := "0123456789abcdef".data.getD n '0'

/-- `hexEscapeNonASCII` of `net/http`: every byte from 0x80 on is written `%xx`. -/
def hexEscapeNonASCII (s : String) : String :=
  ⟨(s.data.map fun c =>
      if c.toNat < 0x80 then [c]
      else ((utf8Bytes c.toNat).map fun b => ['%', hexDigit (b / 16), hexDigit (b % 16)]).flatten
    ).flatten⟩

/-- The `Location` header `http.Redirect` writes for the call the response records, on
a request for the path `oldpath`, when `url.Parse` reports `form` of the target. -/
def Response.location (resp : Response) (form : URLForm) (oldpath : String) :
    Option String :=
  resp.redirect.map fun call => hexEscapeNonASCII (redirectURL form oldpath call.1)

/-! ## `walk` and `newFS` -/

/-- The entries of a directory in the order `filepath.Walk` visits them: a file with
the result of reading it, or a directory with the error of listing it, if any, and its
own entries. -/
inductive Forest where
  | nil : Forest
  | file (name : String) (content : Except String ByteSlice) (rest : Forest) : Forest
  | dir (name : String) (listErr : Option String) (children : Forest) (rest : Forest) :
      Forest

/-- What the root argument of `walk` names: a file or a directory. -/
inductive RootEntry where
  | file (name : String) (content : Except String ByteSlice) : RootEntry
  | dir (name : String) (listErr : Option String) (children : Forest) : RootEntry

/-- The part of `fs.FileInfo` the callback reads. -/
structure FileInfo where
  Name : String
  IsDir : Bool

/-- The errors of a walk: `filepath.SkipDir`, an error of the file system handed to
the callback, and the callback's own `couldn't read` error. -/
inductive WalkError where
  | SkipDir : WalkError
  | fs (msg : String) : WalkError
  | read (path msg : String) : WalkError
deriving DecidableEq, Repr

/-- `cache[key] = value`. -/
def mapSet (cache : FS) (key : String) (value : ByteSlice) : FS :=
  fun k => if k = key then some value else cache k

/-- The function `filepath.Walk` calls for each entry; `readFile` is what
`ioutil.ReadFile(path)` returns. -/
abbrev WalkFunc :=
  FS → String → FileInfo → Except String ByteSlice → Option String → FS × Option WalkError

/-- The callback of `walk`. -/
def walkFn (dir : String) (skipDirs : List String) : WalkFunc :=
  fun cache path info readFile err =>
    match err with
    | some e => (cache, some (.fs e))
    | none =>
      if info.IsDir then
        if skipDirs.any fun skip => info.Name = skip then (cache, some .SkipDir)
        else (cache, none)
      else
        match readFile with
        | .error e => (cache, some (.read path e))
        | .ok content => (mapSet cache (TrimPrefix path dir) content, none)

/-- The loop of `filepath.walk` over the names of the directory `path`. -/
def walkNames (fn : WalkFunc) (path : String) : Forest → FS → FS × Option WalkError
  | .nil, cache => (cache, none)
  | .file name content rest, cache =>
    match fn cache (Join path name) ⟨name, false⟩ content none with
    | (cache, none) => walkNames fn path rest cache
    | (cache, some e) => (cache, some e)
  | .dir name listErr children rest, cache =>
    match fn cache (Join path name) ⟨name, true⟩ (.error "is a directory") listErr with
    | (cache, some e) =>
      if e = .SkipDir then walkNames fn path rest cache else (cache, some e)
    | (cache, none) =>
      if listErr.isSome then walkNames fn path rest cache
      else
        match walkNames fn (Join path name) children cache with
        | (cache, none) => walkNames fn path rest cache
        | (cache, some e) =>
          if e = .SkipDir then walkNames fn path rest cache else (cache, some e)

/-- `filepath.Walk(root, fn)` on a root that exists. -/
def filepathWalk (root : String) (fn : WalkFunc) (entry : RootEntry) (cache : FS) :
    FS × Option WalkError :=
  let result :=
    match entry with
    | .file name content => fn cache root ⟨name, false⟩ content none
    | .dir name listErr children =>
      match fn cache root ⟨name, true⟩ (.error "is a directory") listErr with
      | (cache, some e) => (cache, some e)
      | (cache, none) =>
        if listErr.isSome then (cache, none) else walkNames fn root children cache
  (result.1, if result.2 = some .SkipDir then none else result.2)

/-- `walk(dir, skipDirs...)` on the file system entry `root` that `dir` names. -/
def walk (dir : String) (root : RootEntry) (skipDirs : List String) :
    FS × Option WalkError :=
  filepathWalk dir (walkFn dir skipDirs) root (fun _ => none)

def newFS (dir : String) (root : RootEntry) : Except WalkError FS :=
  match walk dir root [".git"] with
  | (cache, none) => .ok cache
  | (_, some e) => .error e

/-! ## Notions used to state the properties of `walk` -/

/-- A file a walk can meet: its walked path, the names of the directories passed on the
way to it, and the result of reading it. -/
structure WalkedFile where
  path : String
  dirs : List String
  content : Except String ByteSlice

/-- Every file of a listing under the directory `path`, reached through `dirs`. -/
def Forest.files (path : String) (dirs : List String) : Forest → List WalkedFile
  | .nil => []
  | .file name content rest => ⟨Join path name, dirs, content⟩ :: rest.files path dirs
  | .dir name _ children rest =>
    children.files (Join path name) (dirs ++ [name]) ++ rest.files path dirs

/-- Every file of the tree at the root `dir`. -/
def RootEntry.files (dir : String) : RootEntry → List WalkedFile
  | .file _ content => [⟨dir, [], content⟩]
  | .dir name _ children => children.files dir [name]

/-- The listing with the entries of every directory named in `skipDirs` removed. -/
def Forest.prune (skipDirs : List String) : Forest → Forest
  | .nil => .nil
  | .file name content rest => .file name content (rest.prune skipDirs)
  | .dir name listErr children rest =>
    if name ∈ skipDirs then .dir name listErr .nil (rest.prune skipDirs)
    else .dir name listErr (children.prune skipDirs) (rest.prune skipDirs)

/-- The tree with the entries of every directory named in `skipDirs` removed. -/
def RootEntry.prune (skipDirs : List String) : RootEntry → RootEntry
  | .file name content => .file name content
  | .dir name listErr children =>
    if name ∈ skipDirs then .dir name listErr .nil
    else .dir name listErr (children.prune skipDirs)

/-- A name a directory listing can hold: not empty, without a separator, neither `.`
nor `..`. -/
def validName (name : String) : Bool :=
  name.data ≠ [] && !name.data.contains '/' && name.data ≠ ['.'] && name.data ≠ ['.', '.']

/-- Every name of the listing is one a directory listing can hold. -/
def Forest.wellNamed : Forest → Bool
  | .nil => true
  | .file name _ rest => validName name && rest.wellNamed
  | .dir name _ children rest => validName name && children.wellNamed && rest.wellNamed

/-- The directories below which every walked path is the root argument `dir` followed
by elements that each begin with a separator: `path` is clean, is neither `.` nor `/`,
and is `dir` followed by nothing or by something that begins with a separator. -/
def GoodDir (dir path : String) : Prop :=
  Clean path = path ∧ path ≠ "." ∧ path ≠ "/" ∧
    ∃ sfx : String, path = dir ++ sfx ∧ (sfx = "" ∨ HasPrefix sfx "/" = true)

/-- Every key of the map begins with a separator. -/
def KeysRooted (cache : FS) : Prop :=
  ∀ k, cache k ≠ none → HasPrefix k "/" = true

/-! ## Concrete instances -/

/-- The built-in table of package `mime` (`builtinTypesLower`).  Every extension the
package registers, from this table or from the system's files, is keyed with its
leading dot. -/
def builtinTypesLower : List (String × String) :=
  [(".avif", "image/avif"),
   (".css", "text/css; charset=utf-8"),
   (".gif", "image/gif"),
   (".htm", "text/html; charset=utf-8"),
   (".html", "text/html; charset=utf-8"),
   (".jpeg", "image/jpeg"),
   (".jpg", "image/jpeg"),
   (".js", "text/javascript; charset=utf-8"),
   (".json", "application/json"),
   (".mjs", "text/javascript; charset=utf-8"),
   (".pdf", "application/pdf"),
   (".png", "image/png"),
   (".svg", "image/svg+xml"),
   (".wasm", "application/wasm"),
   (".webp", "image/webp"),
   (".xml", "text/xml; charset=utf-8")]

/-- `mime.TypeByExtension` over the built-in table, for an ASCII extension: the lookup
is by the lower-cased extension, and an extension without a type gives `""`. -/
def builtinTypeByExtension (ext : String) : String :=
  (builtinTypesLower.lookup ⟨ext.data.map Char.toLower⟩).getD ""

/-- A sniffer that recognises no signature: on every input the fallback answer of
`http.DetectContentType`. -/
def detectFallback (_ : List Nat) : String := "application/octet-stream"

/-- The registry of a system without mime files, with the sniffer `detect`. -/
def builtinMime (detect : List Nat → String) : Mime := ⟨builtinTypeByExtension, detect⟩

/-- A store with one entry. -/
def singleFS (path : String) (content : ByteSlice) : FS :=
  fun k => if k = path then some content else none

/-- A table with one alias. -/
def singleAlias (source target : String) : Aliases :=
  fun k => if k = source then some target else none

/-- The empty alias table (also what `run` is left with when loading fails). -/
def noAliases : Aliases := fun _ => none

/-- The empty store. -/
def noFiles : FS := fun _ => none

/-- A slice whose capacity is its length, as `[]byte(s)` of a literal may be. -/
def tightBytes (s : String) : ByteSlice := ⟨stringBytes s, []⟩

/-- A slice of `s` with zeroed room up to a capacity of 512, as `ioutil.ReadFile`
leaves a short file. -/
def roomyBytes (s : String) : ByteSlice :=
  ⟨stringBytes s, List.replicate (512 - (stringBytes s).length) 0⟩

/-- The directory of the repository's own test, `TestWalk`: four files beside the
`.git` directory. -/
def repoTree : RootEntry :=
  .dir "." none
    (.dir ".git" none (.file "config" (.ok ⟨[91], []⟩) .nil)
      (.file "go.mod" (.ok ⟨[109], []⟩)
        (.file "main.go" (.ok ⟨[112], []⟩)
          (.file "main_test.go" (.ok ⟨[112], []⟩)
            (.file "readme.md" (.ok ⟨[35], []⟩) .nil)))))

/-- The entries of a site directory: a page at its top, a page in `blog`, and a `.git`
directory inside `blog`. -/
def siteListing : Forest :=
  .dir "blog" none
    (.dir ".git" none (.file "HEAD" (.ok ⟨[114], []⟩) .nil)
      (.file "post.html" (.ok ⟨[60, 112, 62], []⟩) .nil))
    (.file "index.html" (.ok ⟨[60, 104, 62], []⟩) .nil)

/-- The site directory, named `site`. -/
def siteTree : RootEntry := .dir "site" none siteListing

/-- A directory that holds the files `.a` and `a`. -/
def hiddenTree : RootEntry :=
  .dir "." none (.file ".a" (.ok ⟨[1], []⟩) (.file "a" (.ok ⟨[2], []⟩) .nil))

/-! ## Theorems: the handlers -/

theorem length_pos_iff_ne_empty (s : String) : s.length > 0 ↔ s ≠ "" := by
  cases s with
  | mk cs =>
    cases cs with
    | nil => simp [String.length]
    | cons c cs => simp [String.length, String.ext_iff]

theorem sliceTo_eq_none (c : ByteSlice) (n : Nat) (h : c.cap < n) : c.sliceTo n = none := by
  simp [ByteSlice.sliceTo, h]

/-- The serve tail answers 200 with the stored bytes whenever the extension has a type
or the content has a capacity of at least 512. -/
theorem serve_ok (m : Mime) (ext : String) (c : ByteSlice)
    (h : m.TypeByExtension ext ≠ "" ∨ sniffLen ≤ c.cap) :
    ∃ ctype, serve m .fresh ext c = .ok ⟨[("Content-Type", ctype)], 200, c.data, none⟩ ∧
      (ctype = m.TypeByExtension ext ∨
        (m.TypeByExtension ext = "" ∧
          ctype = m.DetectContentType ((c.data ++ c.spare).take sniffLen))) := by
  by_cases ht : m.TypeByExtension ext = ""
  · have hc : sniffLen ≤ c.cap := by
      rcases h with h | h
      · exact absurd ht h
      · exact h
    refine ⟨m.DetectContentType ((c.data ++ c.spare).take sniffLen), ?_, Or.inr ⟨ht, rfl⟩⟩
    simp [serve, ht, ByteSlice.sliceTo, hc, Response.fresh, Response.setHeader,
      Response.Write, Response.WriteHeader]
  · refine ⟨m.TypeByExtension ext, ?_, Or.inl rfl⟩
    simp [serve, ht, Response.fresh, Response.setHeader, Response.Write,
      Response.WriteHeader]

/-- C1: a request for a stored path whose extension has no type and whose content has a
capacity below 512 does not get a Serve response: slicing `content[:sniffLen]` panics.
Here the store holds the two bytes of `hi` under `/a` and the request is for `/a`. -/
theorem handle_exact_match_short_content_panics (detect : List Nat → String) :
    handle (builtinMime detect) noAliases (singleFS "/a" (tightBytes "hi")) .fresh
      ⟨"localhost", "/a", ""⟩ = .error "slice bounds out of range" := by
  rfl

/-- C2, for the call of `http.Redirect`: for a path that is not stored and has an alias, whether or not the
path is stored with `.html` appended, the handler calls `http.Redirect` with status 307
and with a target that is exactly the alias target when the raw query is empty, and the
alias target followed by `?` and the raw query when it is not. -/
theorem handle_alias_redirect (m : Mime) (aliases : Aliases) (fs : FS) (r : Request)
    (t : String) (hfs : fs r.Path = none) (hal : aliases r.Path = some t) :
    handle m aliases fs .fresh r =
      .ok ⟨[], 307, [],
        some (if r.RawQuery = "" then t else t ++ "?" ++ r.RawQuery, 307)⟩ := by
  by_cases hq : r.RawQuery = ""
  · have hlen : ¬ r.RawQuery.length > 0 := by
      rw [length_pos_iff_ne_empty]; simp [hq]
    simp [handle, hfs, hal, hq, httpRedirect, Response.fresh, Response.WriteHeader, validStatusCode,
      StatusTemporaryRedirect]
  · have hlen : r.RawQuery.length > 0 := (length_pos_iff_ne_empty _).2 hq
    simp [handle, hfs, hal, hq, hlen, httpRedirect, Response.fresh, Response.WriteHeader, validStatusCode,
      StatusTemporaryRedirect]

/-- The example of the specification: with the alias `/old` to `/new`, the request
`/old?x=1` makes the handler pass `/new?x=1` to `http.Redirect`, also when `/old.html`
is stored; the `Location` of that target is `/new?x=1` itself. -/
theorem handle_alias_redirect_witness :
    handle (builtinMime detectFallback) (singleAlias "/old" "/new")
        (singleFS "/old.html" (tightBytes "x")) .fresh ⟨"localhost", "/old", "x=1"⟩ =
      .ok ⟨[], 307, [], some ("/new?x=1", 307)⟩ ∧
    Response.location ⟨[], 307, [], some ("/new?x=1", 307)⟩ .relative "/old" =
      some "/new?x=1" :=
  ⟨handle_alias_redirect (builtinMime detectFallback) (singleAlias "/old" "/new")
    (singleFS "/old.html" (tightBytes "x")) ⟨"localhost", "/old", "x=1"⟩ "/new"
    (by decide) (by decide), by decide⟩

/-- C2, as stated, fails: the target the response carries is not the alias target for
every alias.  For the alias of `/old` to `/a/../b` the handler passes `/a/../b` to
`http.Redirect`, whose `Location` is `/b`; for the alias of `/dir/old` to `new` and the
query `x=1` it passes `new?x=1`, and the `Location` is `/dir/new?x=1`. -/
theorem handle_alias_location_differs :
    handle (builtinMime detectFallback) (singleAlias "/old" "/a/../b") noFiles .fresh
      ⟨"localhost", "/old", ""⟩ = .ok ⟨[], 307, [], some ("/a/../b", 307)⟩ ∧
    Response.location ⟨[], 307, [], some ("/a/../b", 307)⟩ .relative "/old" =
      some "/b" ∧
    handle (builtinMime detectFallback) (singleAlias "/dir/old" "new") noFiles .fresh
      ⟨"localhost", "/dir/old", "x=1"⟩ = .ok ⟨[], 307, [], some ("new?x=1", 307)⟩ ∧
    Response.location ⟨[], 307, [], some ("new?x=1", 307)⟩ .relative "/dir/old" =
      some "/dir/new?x=1" := by
  refine ⟨rfl, by decide, rfl, by decide⟩

set_option maxRecDepth 20000 in
/-- C3: in the `.html` fallback the extension looked up is `"html"`, without its dot,
which the registry does not hold, so the content type comes from sniffing
`content[:sniffLen]`: the example of the specification (15 bytes) panics when the
slice has no room, and is typed by the sniffer when it has. -/
theorem handle_html_fallback_example (detect : List Nat → String) :
    builtinTypeByExtension "html" = "" ∧
    handle (builtinMime detect) noAliases
        (singleFS "/index.html" (tightBytes "<html>hi</html>")) .fresh
        ⟨"localhost", "/index", ""⟩ = .error "slice bounds out of range" ∧
    handle (builtinMime detect) noAliases
        (singleFS "/index.html" (roomyBytes "<html>hi</html>")) .fresh
        ⟨"localhost", "/index", ""⟩ =
      .ok ⟨[("Content-Type",
              detect (stringBytes "<html>hi</html>" ++ List.replicate 497 0))],
            200, stringBytes "<html>hi</html>", none⟩ := by
  refine ⟨by decide, rfl, ?_⟩
  rfl

/-- A stored path is served with status 200, its stored bytes and one `Content-Type`
header whenever its extension has a type or its content has a capacity of at least
512. -/
theorem handle_exact_match_serves (m : Mime) (aliases : Aliases) (fs : FS) (r : Request)
    (c : ByteSlice) (hfs : fs r.Path = some c)
    (h : m.TypeByExtension (Ext r.Path) ≠ "" ∨ sniffLen ≤ c.cap) :
    ∃ ctype, handle m aliases fs .fresh r =
      .ok ⟨[("Content-Type", ctype)], 200, c.data, none⟩ := by
  obtain ⟨ctype, hs, _⟩ := serve_ok m (Ext r.Path) c h
  exact ⟨ctype, by simp only [handle, hfs]; exact hs⟩

/-- A stored path whose extension has no type and whose content has a capacity below
512 makes the handler panic. -/
theorem handle_exact_match_panics (m : Mime) (aliases : Aliases) (fs : FS) (r : Request)
    (c : ByteSlice) (hfs : fs r.Path = some c) (ht : m.TypeByExtension (Ext r.Path) = "")
    (hc : c.cap < sniffLen) :
    handle m aliases fs .fresh r = .error "slice bounds out of range" := by
  simp only [handle, hfs, serve, ht, if_true, sliceTo_eq_none c sniffLen hc]

theorem serve_code (m : Mime) (ext : String) (c : ByteSlice) (resp : Response)
    (h : serve m .fresh ext c = .ok resp) : resp.code = 200 := by
  unfold serve at h
  simp only [] at h
  split at h
  · split at h
    · cases h
    · cases h; rfl
  · cases h; rfl

theorem fallback_key (p : String) : p ++ "." ++ "html" = p ++ ".html" := by
  rw [String.append_assoc]; rfl

/-- C4: a path that is neither stored nor aliased, and is not stored with `.html`
appended, is answered 404 with the body `Not Found` and no redirect; and a response
of status 404 is given in this case only. -/
theorem handle_not_found (m : Mime) (aliases : Aliases) (fs : FS) (r : Request) :
    (fs r.Path = none ∧ aliases r.Path = none ∧ fs (r.Path ++ ".html") = none →
      handle m aliases fs .fresh r =
        .ok ⟨[], 404, [78, 111, 116, 32, 70, 111, 117, 110, 100], none⟩) ∧
    (∀ resp, handle m aliases fs .fresh r = .ok resp → resp.code = 404 →
      fs r.Path = none ∧ aliases r.Path = none ∧ fs (r.Path ++ ".html") = none) ∧
    stringBytes "Not Found" = [78, 111, 116, 32, 70, 111, 117, 110, 100] := by
  refine ⟨?_, ?_, by decide⟩
  · rintro ⟨h1, h2, h3⟩
    simp only [handle, h1, h2, fallback_key, h3]
    rfl
  · intro resp h hc
    cases h1 : fs r.Path with
    | some c =>
      simp only [handle, h1] at h
      have := serve_code m _ c resp h
      omega
    | none =>
      cases h2 : aliases r.Path with
      | some t =>
        simp only [handle, h1, h2] at h
        cases h
        simp [httpRedirect, Response.fresh, Response.WriteHeader, validStatusCode,
          StatusTemporaryRedirect] at hc
      | none =>
        cases h3 : fs (r.Path ++ ".html") with
        | some c =>
          simp only [handle, h1, h2, fallback_key, h3] at h
          have := serve_code m _ c resp h
          omega
        | none => exact ⟨rfl, rfl, rfl⟩

set_option maxRecDepth 20000 in
/-- C5: content shorter than 512 bytes under a path without a known extension: with no
room behind the content (0, 1 and 511 bytes) `content[:sniffLen]` panics and the
request gets no response; with room up to 512 the slice taken for sniffing has 512
elements, the content followed by what lies behind it. -/
theorem handle_sniff_short_content (detect : List Nat → String) :
    handle (builtinMime detect) noAliases (singleFS "/f" ⟨[], []⟩) .fresh
      ⟨"localhost", "/f", ""⟩ = .error "slice bounds out of range" ∧
    handle (builtinMime detect) noAliases (singleFS "/f" ⟨[65], []⟩) .fresh
      ⟨"localhost", "/f", ""⟩ = .error "slice bounds out of range" ∧
    handle (builtinMime detect) noAliases (singleFS "/f" ⟨List.replicate 511 65, []⟩)
      .fresh ⟨"localhost", "/f", ""⟩ = .error "slice bounds out of range" ∧
    handle (builtinMime detect) noAliases (singleFS "/f" ⟨[65], List.replicate 511 0⟩)
      .fresh ⟨"localhost", "/f", ""⟩ =
      .ok ⟨[("Content-Type", detect (65 :: List.replicate 511 0))], 200, [65], none⟩ := by
  refine ⟨rfl, rfl, rfl, rfl⟩

/-- C6: the redirector answers 404, without a redirect, exactly when the request's host
differs from the configured host; otherwise it redirects with status 307 to
`https://` followed by the host and the path, and by `?` and the raw query when the
raw query is not empty. -/
theorem redirect_spec (host : String) (r : Request) :
    ∃ resp, redirect host .fresh r = .ok resp ∧
      (resp.code = 404 ↔ r.Host ≠ host) ∧
      (r.Host ≠ host → resp = ⟨[], 404, [], none⟩) ∧
      (r.Host = host → resp = ⟨[], 307, [],
        some (if r.RawQuery = "" then "https://" ++ host ++ r.Path
              else "https://" ++ host ++ r.Path ++ "?" ++ r.RawQuery, 307)⟩) := by
  by_cases hh : r.Host = host
  · by_cases hq : r.RawQuery = ""
    · have hlen : ¬ r.RawQuery.length > 0 := by
        rw [length_pos_iff_ne_empty]; simp [hq]
      refine ⟨_, by simp only [redirect, hh, ne_eq, not_true_eq_false, if_false]; rfl, ?_⟩
      simp [hh, hq, httpRedirect, Response.fresh, Response.WriteHeader, validStatusCode,
        StatusTemporaryRedirect]
    · have hlen : r.RawQuery.length > 0 := (length_pos_iff_ne_empty _).2 hq
      refine ⟨_, by simp only [redirect, hh, ne_eq, not_true_eq_false, if_false]; rfl, ?_⟩
      simp [hh, hq, hlen, httpRedirect, Response.fresh, Response.WriteHeader, validStatusCode,
        StatusTemporaryRedirect]
  · refine ⟨_, by simp only [redirect, ne_eq, hh, not_false_eq_true, if_true]; rfl, ?_⟩
    simp [hh, Response.fresh, Response.WriteHeader, validStatusCode, StatusNotFound]

theorem writeHeader_statusCode (r r1 : ResponseWriter) (c : Int)
    (h : r.WriteHeader c = .ok r1) :
    r1.statusCode = c ∧ (r.inner.code ≠ 0 → r1.inner = r.inner) ∧
      (r.inner.code = 0 → r1.inner.code = c ∧ c ≠ 0) := by
  unfold ResponseWriter.WriteHeader Response.WriteHeader at h
  by_cases h0 : r.inner.code = 0
  · by_cases hv : validStatusCode c = true
    · simp [h0, hv] at h
      subst h
      refine ⟨rfl, fun hn => absurd h0 hn, fun _ => ⟨rfl, ?_⟩⟩
      intro hc
      simp [validStatusCode, hc] at hv
    · simp [h0, hv] at h
  · simp [h0] at h
    subst h
    exact ⟨rfl, fun _ => rfl, fun hz => absurd hz h0⟩

theorem writeHeaders_written (codes : List Int) :
    ∀ r r2 : ResponseWriter, r.inner.code ≠ 0 → r.writeHeaders codes = .ok r2 →
      r2.inner = r.inner ∧ r2.statusCode = (codes.getLast?).getD r.statusCode := by
  induction codes with
  | nil =>
    intro r r2 _ h
    simp only [ResponseWriter.writeHeaders, Except.ok.injEq] at h
    subst h
    exact ⟨rfl, rfl⟩
  | cons c cs ih =>
    intro r r2 hn h
    simp only [ResponseWriter.writeHeaders] at h
    cases h1 : r.WriteHeader c with
    | error e => simp [h1] at h
    | ok r1 =>
      simp only [h1] at h
      obtain ⟨hs, hin, _⟩ := writeHeader_statusCode r r1 c h1
      have hin1 := hin hn
      obtain ⟨ha, hb⟩ := ih r1 r2 (by rw [hin1]; exact hn) h
      refine ⟨by rw [ha, hin1], ?_⟩
      rw [hb, hs]
      cases cs with
      | nil => rfl
      | cons d ds =>
        have hx : (c :: d :: ds).getLast? = (d :: ds).getLast? := List.getLast?_cons_cons
        rw [hx]
        cases hl : (d :: ds).getLast? with
        | none => simp at hl
        | some x => rfl

/-- After a sequence of `WriteHeader` calls that returns, made on a wrapper of a writer
that has written nothing, the writer has sent the first code of the sequence and the
wrapper keeps the last. -/
theorem writeHeaders_sent_and_kept (w : Response) (c : Int) (cs : List Int)
    (r : ResponseWriter) (hw : w.code = 0)
    (h : (ResponseWriter.wrap w).writeHeaders (c :: cs) = .ok r) :
    r.inner.code = c ∧ r.statusCode = (cs.getLast?).getD c := by
  simp only [ResponseWriter.writeHeaders] at h
  cases h1 : (ResponseWriter.wrap w).WriteHeader c with
  | error e => simp [h1] at h
  | ok r1 =>
    simp only [h1] at h
    obtain ⟨hs, _, hz⟩ := writeHeader_statusCode _ r1 c h1
    obtain ⟨hc, hne⟩ := hz hw
    obtain ⟨ha, hb⟩ := writeHeaders_written cs r1 r (by rw [hc]; exact hne) h
    exact ⟨by rw [ha, hc], by rw [hb, hs]⟩

/-- C10: after `WriteHeader(404)` and then `WriteHeader(200)` on a fresh wrapper both
calls return, the embedded writer has sent 404, the first code written, and
`StatusCode()` returns 200, the last. -/
theorem statusCode_not_first_written :
    (ResponseWriter.wrap .fresh).writeHeaders [404, 200] =
      .ok ⟨⟨[], 404, [], none⟩, 200⟩ ∧
    (⟨⟨[], 404, [], none⟩, 200⟩ : ResponseWriter).StatusCode = 200 ∧
    ([404, 200] : List Int).head? = some 404 := by
  refine ⟨rfl, by decide, by decide⟩

/-! ## Theorems: paths -/

theorem splitElems_ne_nil (p : List Char) : splitElems p ≠ [] := by
  cases p with
  | nil => simp [splitElems]
  | cons c cs =>
    unfold splitElems
    split
    · simp
    · split <;> simp

theorem splitElems_of_no_sep (n : List Char) (h : '/' ∉ n) : splitElems n = [n] := by
  induction n with
  | nil => rfl
  | cons c cs ih =>
    have hc : c ≠ '/' := fun e => h (by simp [e])
    have hcs : '/' ∉ cs := fun e => h (by simp [e])
    simp [splitElems, hc, ih hcs]

theorem splitElems_append (p n : List Char) (h : '/' ∉ n) :
    splitElems (p ++ '/' :: n) = splitElems p ++ [n] := by
  induction p with
  | nil => simp [splitElems, splitElems_of_no_sep n h]
  | cons c cs ih =>
    by_cases hc : c = '/'
    · simp [splitElems, hc, ih]
    · have hne := splitElems_ne_nil cs
      cases hs : splitElems cs with
      | nil => exact absurd hs hne
      | cons e es =>
        simp [splitElems, hc, ih, hs]

theorem joinElems_append (out : List (List Char)) (n : List Char) (h : out ≠ []) :
    joinElems (out ++ [n]) = joinElems out ++ '/' :: n := by
  induction out with
  | nil => exact absurd rfl h
  | cons e es ih =>
    cases es with
    | nil => simp [joinElems]
    | cons e2 es2 =>
      have := ih (by simp)
      simp [joinElems] at this ⊢
      exact this

theorem cleanElem_of_valid (rooted : Bool) (out : List (List Char)) (n : List Char)
    (h1 : n ≠ []) (h2 : n ≠ ['.']) (h3 : n ≠ ['.', '.']) :
    cleanElem rooted out n = out ++ [n] := by
  simp [cleanElem, h1, h2, h3]

theorem cleanChars_append (p n : List Char) (hclean : cleanChars p = p)
    (hdot : p ≠ ['.']) (hroot : p ≠ ['/']) (hsep : '/' ∉ n)
    (h1 : n ≠ []) (h2 : n ≠ ['.']) (h3 : n ≠ ['.', '.']) :
    cleanChars (p ++ '/' :: n) = p ++ '/' :: n := by
  cases p with
  | nil => simp [cleanChars] at hclean
  | cons c cs =>
    have hsplit := splitElems_append (c :: cs) n hsep
    simp only [cleanChars, List.cons_append] at hclean ⊢
    simp only [List.cons_append] at hsplit
    rw [hsplit, List.foldl_append]
    simp only [List.foldl_cons, List.foldl_nil]
    rw [cleanElem_of_valid _ _ n h1 h2 h3]
    generalize List.foldl (cleanElem (decide (c = '/'))) [] (splitElems (c :: cs)) = out
      at hclean ⊢
    by_cases ho : out = []
    · subst ho
      by_cases hr : c = '/'
      · simp [hr, joinElems] at hclean
        exact absurd (by rw [hr, ← hclean]) hroot
      · simp [hr, joinElems] at hclean
        exact absurd (by rw [← hclean.1, ← hclean.2]) hdot
    · rw [joinElems_append out n ho]
      by_cases hr : c = '/'
      · simp only [hr, decide_True, if_true] at hclean ⊢
        rw [← List.cons_append, hclean]
        rfl
      · simp only [hr, decide_False] at hclean ⊢
        by_cases hj : joinElems out = []
        · simp [hj] at hclean
          exact absurd (by rw [← hclean.1, ← hclean.2]) hdot
        · simp only [hj, if_false, Bool.false_eq_true] at hclean
          simp [hclean]

theorem data_join3 (p n : String) : (p ++ "/" ++ n).data = p.data ++ '/' :: n.data := by
  simp [String.data_append]

theorem validName_spec (n : String) (h : validName n = true) :
    '/' ∉ n.data ∧ n.data ≠ [] ∧ n.data ≠ ['.'] ∧ n.data ≠ ['.', '.'] := by
  simp [validName] at h
  exact ⟨h.1.1.2, h.1.1.1, h.1.2, h.2⟩

theorem Clean_join_of_valid (p n : String) (hclean : Clean p = p) (hdot : p ≠ ".")
    (hroot : p ≠ "/") (hn : validName n = true) :
    Clean (p ++ "/" ++ n) = p ++ "/" ++ n := by
  obtain ⟨hsep, h1, h2, h3⟩ := validName_spec n hn
  have hc : cleanChars p.data = p.data := congrArg String.data hclean
  have hd : p.data ≠ ['.'] := fun e => hdot (String.ext e)
  have hr : p.data ≠ ['/'] := fun e => hroot (String.ext e)
  apply String.ext
  simp only [Clean, data_join3]
  exact cleanChars_append p.data n.data hc hd hr hsep h1 h2 h3

theorem Join_of_valid (p n : String) (hclean : Clean p = p) (hdot : p ≠ ".")
    (hroot : p ≠ "/") (hn : validName n = true) :
    Join p n = p ++ "/" ++ n := by
  have hne : p ≠ "" := by
    intro e
    rw [e] at hclean
    exact absurd hclean (by decide)
  simp only [Join, ne_eq, hne, not_false_eq_true, if_true]
  exact Clean_join_of_valid p n hclean hdot hroot hn

theorem TrimPrefix_append (d s : String) : TrimPrefix (d ++ s) d = s := by
  have hp : HasPrefix (d ++ s) d = true := by
    simp [HasPrefix, String.data_append, List.isPrefixOf_iff_prefix]
  simp only [TrimPrefix, hp, if_true]
  apply String.ext
  simp [String.data_append]

theorem hasPrefix_sep_iff (s : String) :
    HasPrefix s "/" = true ↔ ∃ t, s.data = '/' :: t := by
  cases s with
  | mk cs =>
    cases cs with
    | nil => simp [HasPrefix, List.isPrefixOf]
    | cons c cs =>
      simp [HasPrefix, List.isPrefixOf]
      exact eq_comm

theorem goodDir_child (dir p n : String) (hg : GoodDir dir p) (hn : validName n = true) :
    Join p n = p ++ "/" ++ n ∧ GoodDir dir (p ++ "/" ++ n) ∧
      HasPrefix (TrimPrefix (p ++ "/" ++ n) dir) "/" = true := by
  obtain ⟨hclean, hdot, hroot, sfx, hp, hs⟩ := hg
  have hsfx : HasPrefix (sfx ++ "/" ++ n) "/" = true := by
    rw [hasPrefix_sep_iff]
    rcases hs with hs | hs
    · subst hs
      exact ⟨n.data, by simp [String.data_append]⟩
    · obtain ⟨t, ht⟩ := (hasPrefix_sep_iff sfx).1 hs
      exact ⟨t ++ '/' :: n.data, by simp [String.data_append, ht]⟩
  have hassoc : p ++ "/" ++ n = dir ++ (sfx ++ "/" ++ n) := by
    rw [hp, String.append_assoc, String.append_assoc, String.append_assoc]
  obtain ⟨_, h1, _, _⟩ := validName_spec n hn
  have hnlen : 0 < n.length := List.length_pos.2 h1
  refine ⟨Join_of_valid p n hclean hdot hroot hn, ⟨?_, ?_, ?_, sfx ++ "/" ++ n, hassoc,
    Or.inr hsfx⟩, ?_⟩
  · exact Clean_join_of_valid p n hclean hdot hroot hn
  · intro e
    have := congrArg (fun s => s.data.length) e
    simp [String.data_append] at this
    omega
  · intro e
    have := congrArg (fun s => s.data.length) e
    simp [String.data_append] at this
    omega
  · rw [hassoc, TrimPrefix_append]
    exact hsfx

/-! ## Theorems: the callback and the loop of the walk -/

theorem any_skip_iff (skipDirs : List String) (name : String) :
    (skipDirs.any fun skip => decide (name = skip)) = true ↔ name ∈ skipDirs := by
  simp [List.any_eq_true]

theorem walkNames_file_ok (dir : String) (skipDirs : List String) (path name : String)
    (c : ByteSlice) (rest : Forest) (cache : FS) :
    walkNames (walkFn dir skipDirs) path (.file name (.ok c) rest) cache =
      walkNames (walkFn dir skipDirs) path rest
        (mapSet cache (TrimPrefix (Join path name) dir) c) := by
  simp [walkNames, walkFn]

theorem walkNames_file_err (dir : String) (skipDirs : List String) (path name e : String)
    (rest : Forest) (cache : FS) :
    walkNames (walkFn dir skipDirs) path (.file name (.error e) rest) cache =
      (cache, some (.read (Join path name) e)) := by
  simp [walkNames, walkFn]

theorem walkNames_dir_listErr (dir : String) (skipDirs : List String)
    (path name e : String) (children rest : Forest) (cache : FS) :
    walkNames (walkFn dir skipDirs) path (.dir name (some e) children rest) cache =
      (cache, some (.fs e)) := by
  simp [walkNames, walkFn]

theorem walkNames_dir_skip (dir : String) (skipDirs : List String) (path name : String)
    (children rest : Forest) (cache : FS) (h : name ∈ skipDirs) :
    walkNames (walkFn dir skipDirs) path (.dir name none children rest) cache =
      walkNames (walkFn dir skipDirs) path rest cache := by
  have := (any_skip_iff skipDirs name).2 h
  simp [walkNames, walkFn, this]

theorem walkNames_dir_enter (dir : String) (skipDirs : List String) (path name : String)
    (children rest : Forest) (cache : FS) (h : name ∉ skipDirs) :
    walkNames (walkFn dir skipDirs) path (.dir name none children rest) cache =
      match walkNames (walkFn dir skipDirs) (Join path name) children cache with
      | (cache, none) => walkNames (walkFn dir skipDirs) path rest cache
      | (cache, some e) =>
        if e = .SkipDir then walkNames (walkFn dir skipDirs) path rest cache
        else (cache, some e) := by
  have : ¬ (skipDirs.any fun skip => decide (name = skip)) = true :=
    fun e => h ((any_skip_iff skipDirs name).1 e)
  simp [walkNames, walkFn, this]

theorem walkNames_sound (dir : String) (skipDirs : List String) :
    ∀ (listing : Forest) (path : String) (dirs : List String) (cache : FS),
      (∀ d ∈ dirs, d ∉ skipDirs) →
      ∀ k b, (walkNames (walkFn dir skipDirs) path listing cache).1 k = some b →
        cache k = some b ∨
        ∃ f ∈ listing.files path dirs,
          TrimPrefix f.path dir = k ∧ f.content = .ok b ∧ ∀ d ∈ f.dirs, d ∉ skipDirs := by
  intro listing
  induction listing with
  | nil =>
    intro path dirs cache _ k b h
    exact Or.inl h
  | file name content rest ih =>
    intro path dirs cache hd k b h
    cases content with
    | error e =>
      rw [walkNames_file_err] at h
      exact Or.inl h
    | ok c =>
      rw [walkNames_file_ok] at h
      rcases ih path dirs _ hd k b h with h1 | ⟨f, hf, hk⟩
      · by_cases hk : k = TrimPrefix (Join path name) dir
        · simp only [mapSet, hk, if_true, Option.some.injEq] at h1
          refine Or.inr ⟨⟨Join path name, dirs, .ok c⟩, ?_, hk.symm, by rw [h1], hd⟩
          simp [Forest.files]
        · simp only [mapSet, hk, if_false] at h1
          exact Or.inl h1
      · exact Or.inr ⟨f, by simp [Forest.files, hf], hk⟩
  | dir name listErr children rest ihc ihr =>
    intro path dirs cache hd k b h
    have hrest : ∀ cache2 : FS,
        (walkNames (walkFn dir skipDirs) path rest cache2).1 k = some b →
        cache2 k = some b ∨
        ∃ f ∈ (Forest.dir name listErr children rest).files path dirs,
          TrimPrefix f.path dir = k ∧ f.content = .ok b ∧ ∀ d ∈ f.dirs, d ∉ skipDirs := by
      intro cache2 h2
      rcases ihr path dirs cache2 hd k b h2 with h1 | ⟨f, hf, hk⟩
      · exact Or.inl h1
      · exact Or.inr ⟨f, by simp [Forest.files, hf], hk⟩
    cases listErr with
    | some e =>
      rw [walkNames_dir_listErr] at h
      exact Or.inl h
    | none =>
      by_cases hs : name ∈ skipDirs
      · rw [walkNames_dir_skip _ _ _ _ _ _ _ hs] at h
        exact hrest cache h
      · rw [walkNames_dir_enter _ _ _ _ _ _ _ hs] at h
        have hd2 : ∀ d ∈ dirs ++ [name], d ∉ skipDirs := by
          intro d hm
          rcases List.mem_append.1 hm with hm | hm
          · exact hd d hm
          · simp at hm
            rw [hm]; exact hs
        have hchild : ∀ k b,
            (walkNames (walkFn dir skipDirs) (Join path name) children cache).1 k = some b →
            cache k = some b ∨
            ∃ f ∈ (Forest.dir name none children rest).files path dirs,
              TrimPrefix f.path dir = k ∧ f.content = .ok b ∧
                ∀ d ∈ f.dirs, d ∉ skipDirs := by
          intro k b h2
          rcases ihc (Join path name) (dirs ++ [name]) cache hd2 k b h2 with h1 | ⟨f, hf, hk⟩
          · exact Or.inl h1
          · exact Or.inr ⟨f, by simp [Forest.files, hf], hk⟩
        generalize hres : walkNames (walkFn dir skipDirs) (Join path name) children cache = res
          at h hchild
        obtain ⟨cache2, err⟩ := res
        cases err with
        | none =>
          simp only at h
          rcases hrest cache2 h with h1 | h1
          · exact hchild k b h1
          · exact Or.inr h1
        | some e =>
          simp only at h
          by_cases he : e = .SkipDir
          · simp only [he, if_true] at h
            rcases hrest cache2 h with h1 | h1
            · exact hchild k b h1
            · exact Or.inr h1
          · simp only [he, if_false] at h
            exact hchild k b h

theorem walkNames_prune (dir : String) (skipDirs : List String) :
    ∀ (listing : Forest) (path : String) (cache : FS),
      walkNames (walkFn dir skipDirs) path (listing.prune skipDirs) cache =
        walkNames (walkFn dir skipDirs) path listing cache := by
  intro listing
  induction listing with
  | nil => intro path cache; rfl
  | file name content rest ih =>
    intro path cache
    cases content with
    | error e => simp only [Forest.prune, walkNames_file_err]
    | ok c => simp only [Forest.prune, walkNames_file_ok, ih]
  | dir name listErr children rest ihc ihr =>
    intro path cache
    cases listErr with
    | some e =>
      by_cases hs : name ∈ skipDirs
      · simp only [Forest.prune, hs, if_true, walkNames_dir_listErr]
      · simp only [Forest.prune, hs, if_false, walkNames_dir_listErr]
    | none =>
      by_cases hs : name ∈ skipDirs
      · simp only [Forest.prune, hs, if_true]
        rw [walkNames_dir_skip _ _ _ _ _ _ _ hs, walkNames_dir_skip _ _ _ _ _ _ _ hs, ihr]
      · simp only [Forest.prune, hs, if_false]
        rw [walkNames_dir_enter _ _ _ _ _ _ _ hs, walkNames_dir_enter _ _ _ _ _ _ _ hs, ihc]
        simp only [ihr]

theorem keysRooted_mapSet (cache : FS) (key : String) (value : ByteSlice)
    (hc : KeysRooted cache) (hk : HasPrefix key "/" = true) :
    KeysRooted (mapSet cache key value) := by
  intro k h
  by_cases e : k = key
  · rw [e]; exact hk
  · simp only [mapSet, e, if_false] at h
    exact hc k h

theorem walkNames_keys (dir : String) (skipDirs : List String) :
    ∀ (listing : Forest) (path : String) (cache : FS),
      listing.wellNamed = true → GoodDir dir path → KeysRooted cache →
      KeysRooted (walkNames (walkFn dir skipDirs) path listing cache).1 := by
  intro listing
  induction listing with
  | nil => intro path cache _ _ hc; exact hc
  | file name content rest ih =>
    intro path cache hw hg hc
    simp only [Forest.wellNamed, Bool.and_eq_true] at hw
    cases content with
    | error e => rw [walkNames_file_err]; exact hc
    | ok c =>
      rw [walkNames_file_ok]
      obtain ⟨hj, _, hp⟩ := goodDir_child dir path name hg hw.1
      apply ih path _ hw.2 hg
      rw [hj]
      exact keysRooted_mapSet cache _ c hc hp
  | dir name listErr children rest ihc ihr =>
    intro path cache hw hg hc
    simp only [Forest.wellNamed, Bool.and_eq_true] at hw
    cases listErr with
    | some e => rw [walkNames_dir_listErr]; exact hc
    | none =>
      by_cases hs : name ∈ skipDirs
      · rw [walkNames_dir_skip _ _ _ _ _ _ _ hs]
        exact ihr path cache hw.2 hg hc
      · rw [walkNames_dir_enter _ _ _ _ _ _ _ hs]
        obtain ⟨hj, hg2, _⟩ := goodDir_child dir path name hg hw.1.1
        have hchild := ihc (Join path name) cache hw.1.2 (by rw [hj]; exact hg2) hc
        generalize walkNames (walkFn dir skipDirs) (Join path name) children cache = res
          at hchild
        obtain ⟨cache2, err⟩ := res
        cases err with
        | none => exact ihr path cache2 hw.2 hg hchild
        | some e =>
          by_cases he : e = .SkipDir
          · simp only [he, if_true]
            exact ihr path cache2 hw.2 hg hchild
          · simp only [he, if_false]
            exact hchild

/-! ## Theorems: `walk` -/

/-- C7: every entry of the map `walk` returns comes from a file of the tree none of
whose directories, from the root down, has a name among `skipDirs`; and the map and
the error are the same when every directory with such a name, at any depth, is
emptied. -/
theorem walk_skips_pruned (dir : String) (root : RootEntry) (skipDirs : List String) :
    (∀ k b, (walk dir root skipDirs).1 k = some b →
      ∃ f ∈ root.files dir,
        TrimPrefix f.path dir = k ∧ f.content = .ok b ∧ ∀ d ∈ f.dirs, d ∉ skipDirs) ∧
    walk dir (root.prune skipDirs) skipDirs = walk dir root skipDirs := by
  constructor
  · intro k b h
    cases root with
    | file name content =>
      cases content with
      | error e => simp [walk, filepathWalk, walkFn] at h
      | ok c =>
        simp only [walk, filepathWalk, walkFn] at h
        by_cases hk : k = TrimPrefix dir dir
        · simp [mapSet, hk] at h
          exact ⟨⟨dir, [], .ok c⟩, by simp [RootEntry.files], hk.symm, by rw [h], by simp⟩
        · simp [mapSet, hk] at h
    | dir name listErr children =>
      cases listErr with
      | some e => simp [walk, filepathWalk, walkFn] at h
      | none =>
        by_cases hs : name ∈ skipDirs
        · have := (any_skip_iff skipDirs name).2 hs
          simp [walk, filepathWalk, walkFn, this] at h
        · have hany : ¬ (skipDirs.any fun skip => decide (name = skip)) = true :=
            fun e => hs ((any_skip_iff skipDirs name).1 e)
          simp only [walk, filepathWalk, walkFn, hany] at h
          have hd : ∀ d ∈ [name], d ∉ skipDirs := by
            intro d hm
            simp at hm
            rw [hm]; exact hs
          rcases walkNames_sound dir skipDirs children dir [name] (fun _ => none) hd k b h
            with h1 | h1
          · cases h1
          · exact h1
  · cases root with
    | file name content => rfl
    | dir name listErr children =>
      by_cases hs : name ∈ skipDirs
      · have := (any_skip_iff skipDirs name).2 hs
        cases listErr with
        | some e => simp [RootEntry.prune, hs, walk, filepathWalk, walkFn]
        | none => simp [RootEntry.prune, hs, walk, filepathWalk, walkFn, this]
      · simp only [RootEntry.prune, hs, if_false, walk, filepathWalk, walkNames_prune]

/-- C8: under the root `.` the files `.a` and `a` are both stored under the key `a`,
so the map has one entry, with the bytes of `a`, and none with the bytes of `.a`. -/
theorem walk_hidden_file_lost :
    (walk "." hiddenTree [".git"]).2 = none ∧
    (hiddenTree.files ".").map (fun f => (f.path, TrimPrefix f.path ".")) =
      [(".a", "a"), ("a", "a")] ∧
    (walk "." hiddenTree [".git"]).1 "a" = some ⟨[2], []⟩ ∧
    (walk "." hiddenTree [".git"]).1 ".a" = none := by
  decide

/-- C9, for a root argument that is a clean path other than `.` and `/` and names a
directory whose tree has the names a listing can hold: every key of the map `walk`
returns, and so of the store `newFS` builds, begins with a separator. -/
theorem walk_keys_rooted (dir name : String) (listErr : Option String) (children : Forest)
    (skipDirs : List String) (hclean : Clean dir = dir) (hdot : dir ≠ ".")
    (hroot : dir ≠ "/") (hnames : children.wellNamed = true) :
    KeysRooted (walk dir (.dir name listErr children) skipDirs).1 ∧
    ∀ fs, newFS dir (.dir name listErr children) = .ok fs → KeysRooted fs := by
  have hg : GoodDir dir dir :=
    ⟨hclean, hdot, hroot, "", by simp, Or.inl rfl⟩
  have h0 : KeysRooted (fun _ => none) := fun k h => absurd rfl h
  have main : ∀ skips, KeysRooted (walk dir (.dir name listErr children) skips).1 := by
    intro skips
    cases listErr with
    | some e => simpa [walk, filepathWalk, walkFn] using h0
    | none =>
      by_cases hs : name ∈ skips
      · have := (any_skip_iff skips name).2 hs
        simpa [walk, filepathWalk, walkFn, this] using h0
      · have hany : ¬ (skips.any fun skip => decide (name = skip)) = true :=
          fun e => hs ((any_skip_iff skips name).1 e)
        simp only [walk, filepathWalk, walkFn, hany]
        exact walkNames_keys dir skips children dir _ hnames hg h0
  refine ⟨main skipDirs, ?_⟩
  intro fs hfs
  have hm := main [".git"]
  unfold newFS at hfs
  generalize walk dir (.dir name listErr children) [".git"] = res at hfs hm
  obtain ⟨cache, err⟩ := res
  cases err with
  | none => simp only [Except.ok.injEq] at hfs; rw [← hfs]; exact hm
  | some e => simp at hfs

/-- Under the root `site` the page in `blog` is stored under `/blog/post.html`. -/
theorem walk_keys_rooted_witness :
    (walk "site" siteTree [".git"]).1 "/blog/post.html" = some ⟨[60, 112, 62], []⟩ ∧
    (walk "site" siteTree [".git"]).1 "/index.html" = some ⟨[60, 104, 62], []⟩ ∧
    HasPrefix "/blog/post.html" "/" = true :=
  ⟨by decide, by decide,
    (walk_keys_rooted "site" "site" none siteListing [".git"] (by decide) (by decide)
      (by decide) (by decide)).1 "/blog/post.html" (by decide)⟩

/-- C9, as stated, fails: walking the root `.` stores `main.go` under the key `main.go`,
and walking a root written with a trailing separator stores `index.html` under the key
`index.html`; neither key begins with a separator. -/
theorem walk_keys_not_rooted :
    (walk "." repoTree [".git"]).2 = none ∧
    (walk "." repoTree [".git"]).1 "main.go" = some ⟨[112], []⟩ ∧
    HasPrefix "main.go" "/" = false ∧
    (walk "site/" siteTree [".git"]).2 = none ∧
    (walk "site/" siteTree [".git"]).1 "index.html" = some ⟨[60, 104, 62], []⟩ ∧
    HasPrefix "index.html" "/" = false := by
  decide

end Memhttp
